import Mathlib

/-!
Verification development for the thermostat weekly-schedule model and codec
of `ccu_cli/schedule.py` (time codec, slot/day/week model, paramset codec,
schedule builders).

Modelling conventions:
* Python `dict[str, T]` is modelled as an insertion-ordered association list
  `List (String × T)` with Python dict semantics: lookup returns the first
  (unique) binding, assignment replaces the binding in place when the key is
  present and appends otherwise.
* Numeric parameter values and temperatures are modelled as `ℚ` (every value
  the module stores or compares is an integer or a decimal literal that is
  exact in `ℚ`; the module performs no arithmetic whose float rounding could
  be observed).
* Python functions that raise `ValueError` are modelled as `Option`-returning
  functions, `none` standing for the raised format error.
* Python `int(string)` is modelled for ASCII strings (whitespace stripping,
  an optional sign, digits with single underscores between digits), which
  covers every input the module's claims exercise.
-/

/-! ### Python dict model -/

/-- `dict.get(k)`: first binding for `k`, if any. -/
def dget {α : Type} (d : List (String × α)) (k : String) : Option α :=
  (d.find? (fun p => k == p.1)).map Prod.snd

/-- `k in dict`. -/
def hasKey {α : Type} (d : List (String × α)) (k : String) : Bool :=
  d.any (fun p => k == p.1)

/-- `dict[k] = v`: replace in place when present, else append. -/
def dset {α : Type} (d : List (String × α)) (k : String) (v : α) :
    List (String × α) :=
  if hasKey d k then d.map (fun p => if k == p.1 then (p.1, v) else p)
  else d ++ [(k, v)]

/-! ### Constants from `schedule.py` -/

/-- Days in HomeMatic parameter naming order. -/
def WEEKDAYS : List String :=
  ["MONDAY", "TUESDAY", "WEDNESDAY", "THURSDAY", "FRIDAY", "SATURDAY", "SUNDAY"]

/-- Short names for CLI. -/
def WEEKDAY_SHORT : List (String × String) :=
  [("mon", "MONDAY"), ("tue", "TUESDAY"), ("wed", "WEDNESDAY"),
   ("thu", "THURSDAY"), ("fri", "FRIDAY"), ("sat", "SATURDAY"),
   ("sun", "SUNDAY"),
   ("monday", "MONDAY"), ("tuesday", "TUESDAY"), ("wednesday", "WEDNESDAY"),
   ("thursday", "THURSDAY"), ("friday", "FRIDAY"), ("saturday", "SATURDAY"),
   ("sunday", "SUNDAY")]

def MAX_SLOTS : Nat := 13

/-- 24:00 in minutes. -/
def END_OF_DAY : ℚ := 1440

/-! ### Data model -/

/-- A single time slot in a heating schedule. -/
structure TimeSlot where
  slot_number : Int
  end_minutes : ℚ
  temperature : ℚ
deriving DecidableEq

/-- Schedule for a single day. -/
structure DaySchedule where
  day : String
  slots : List TimeSlot
deriving DecidableEq

/-- The scan of `DaySchedule.get_active_slots`: append each slot in order and
break immediately after the first slot whose `end_minutes >= END_OF_DAY`. -/
def activeScan : List TimeSlot → List TimeSlot
  | [] => []
  | s :: rest =>
    if END_OF_DAY ≤ s.end_minutes then [s] else s :: activeScan rest

/-- Return only the active (non-placeholder) slots. -/
def DaySchedule.get_active_slots (d : DaySchedule) : List TimeSlot :=
  activeScan d.slots

/-- Complete weekly heating schedule (one profile). -/
structure WeekSchedule where
  profile_number : Int
  days : List (String × DaySchedule)
  comfort_temp : ℚ
  lowering_temp : ℚ
deriving DecidableEq

/-- One step of `WeekSchedule.__post_init__`: add an empty `DaySchedule` for
`day` when absent. -/
def ensureDay (ds : List (String × DaySchedule)) (day : String) :
    List (String × DaySchedule) :=
  if hasKey ds day then ds else ds ++ [(day, DaySchedule.mk day [])]

/-- `WeekSchedule(...)` construction including `__post_init__`, which
populates every missing weekday with an empty `DaySchedule`. -/
def WeekSchedule.make (profile : Int) (days : List (String × DaySchedule))
    (comfort lowering : ℚ) : WeekSchedule :=
  { profile_number := profile
    days := WEEKDAYS.foldl ensureDay days
    comfort_temp := comfort
    lowering_temp := lowering }

/-! ### Python `int(...)` and `str.split(":")` -/

/-- ASCII whitespace stripped by Python `int(...)`. -/
def isPySpace (c : Char) : Bool :=
  c == ' ' || c == '\t' || c == '\n' || c == '\r' ||
  c == Char.ofNat 11 || c == Char.ofNat 12

/-- Digit run of a Python integer literal after its first digit: digits with
single underscores allowed between digits. -/
def pyDigitsAux (acc : Nat) : List Char → Option Nat
  | [] => some acc
  | c :: cs =>
    if c.isDigit then pyDigitsAux (acc * 10 + (c.toNat - 48)) cs
    else if c == '_' then
      match cs with
      | [] => none
      | d :: ds =>
        if d.isDigit then pyDigitsAux (acc * 10 + (d.toNat - 48)) ds else none
    else none

/-- Unsigned digit part of a Python integer literal: nonempty, must start
with a digit. -/
def pyDigitsOf : List Char → Option Nat
  | [] => none
  | c :: cs => if c.isDigit then pyDigitsAux (c.toNat - 48) cs else none

/-- Python `int(s)` on the characters of `s`: strip surrounding whitespace,
allow one optional sign, then a digit run. -/
def pyIntChars (cs : List Char) : Option Int :=
  let t := ((cs.dropWhile isPySpace).reverse.dropWhile isPySpace).reverse
  match t with
  | [] => none
  | c :: rest =>
    if c == '+' then (pyDigitsOf rest).map (fun n => (n : Int))
    else if c == '-' then (pyDigitsOf rest).map (fun n => -(n : Int))
    else (pyDigitsOf (c :: rest)).map (fun n => (n : Int))

/-- Python `s.split(":")` on a character list. -/
def splitOnColon : List Char → List (List Char)
  | [] => [[]]
  | c :: rest =>
    if c == ':' then [] :: splitOnColon rest
    else
      match splitOnColon rest with
      | [] => [[c]]
      | g :: gs => (c :: g) :: gs

/-! ### Time codec -/

/-- `parse_time`: parse an `HH:MM` string to minutes since midnight;
`none` models the raised `ValueError`. -/
def parse_time (time_str : String) : Option Int :=
  match splitOnColon time_str.data with
  | [p0, p1] =>
    match pyIntChars p0, pyIntChars p1 with
    | some hours, some minutes =>
      if ¬(0 ≤ hours ∧ hours ≤ 24) ∨ ¬(0 ≤ minutes ∧ minutes < 60) then none
      else if hours = 24 ∧ minutes > 0 then none
      else some (hours * 60 + minutes)
    | _, _ => none
  | _ => none

/-- Python `f"{n:02d}"` for an `int`. -/
def intPad2 (n : Int) : String :=
  let s := toString n
  if s.length < 2 then "0" ++ s else s

/-- `format_time`: minutes since midnight to `HH:MM` (Python `//` and `%`
are floor division and nonnegative remainder for the positive divisor 60,
which `Int./` and `Int.%` match). -/
def format_time (minutes : Int) : String :=
  intPad2 (minutes / 60) ++ ":" ++ intPad2 (minutes % 60)

/-! ### Paramset codec -/

/-- A device MASTER paramset: flat string-keyed mapping of numeric values. -/
abbrev Paramset := List (String × ℚ)

/-- `f"P{profile}_"`. -/
def profileTag (profile : Int) : String :=
  "P" ++ toString profile ++ "_"

/-- Key suffix `ENDTIME_{day}_{n}`. -/
def endtimeSuffix (day : String) (n : Int) : String :=
  "ENDTIME_" ++ day ++ "_" ++ toString n

/-- Key suffix `TEMPERATURE_{day}_{n}`. -/
def tempSuffix (day : String) (n : Int) : String :=
  "TEMPERATURE_" ++ day ++ "_" ++ toString n

/-- `f"{prefix}ENDTIME_{day}_{slot_num}"`. -/
def endtimeKey (profile : Int) (day : String) (n : Int) : String :=
  profileTag profile ++ endtimeSuffix day n

/-- `f"{prefix}TEMPERATURE_{day}_{slot_num}"`. -/
def tempKey (profile : Int) (day : String) (n : Int) : String :=
  profileTag profile ++ tempSuffix day n

/-- `parse_schedule_from_paramset`: decode a weekly schedule from a MASTER
paramset, substituting defaults for missing keys. -/
def parse_schedule_from_paramset (params : Paramset) (profile : Int) :
    WeekSchedule :=
  let base := WeekSchedule.make profile []
    ((dget params "TEMPERATURE_COMFORT").getD 21)
    ((dget params "TEMPERATURE_LOWERING").getD 17)
  let newDays := WEEKDAYS.foldl (fun ds day =>
    dset ds day (DaySchedule.mk day ((List.range MAX_SLOTS).map (fun (j : Nat) =>
      TimeSlot.mk ((j : Int) + 1)
        ((dget params (endtimeKey profile day ((j : Int) + 1))).getD END_OF_DAY)
        ((dget params (tempKey profile day ((j : Int) + 1))).getD
          base.lowering_temp))))) base.days
  { base with days := newDays }

/-- `build_schedule_params`: flatten a `WeekSchedule` into a paramset
dictionary, one `ENDTIME` and one `TEMPERATURE` entry per held slot. -/
def build_schedule_params (s : WeekSchedule) : Paramset :=
  s.days.foldl (fun params p =>
    p.2.slots.foldl (fun params2 sl =>
      dset (dset params2 (endtimeKey s.profile_number p.1 sl.slot_number)
          sl.end_minutes)
        (tempKey s.profile_number p.1 sl.slot_number) sl.temperature)
      params) []

/-! ### Schedule builders -/

/-- ASCII `str.lower` (sufficient for the day tokens in scope). -/
def pyLowerChar (c : Char) : Char :=
  if 'A' ≤ c ∧ c ≤ 'Z' then Char.ofNat (c.toNat + 32) else c

/-- ASCII `str.upper`. -/
def pyUpperChar (c : Char) : Char :=
  if 'a' ≤ c ∧ c ≤ 'z' then Char.ofNat (c.toNat - 32) else c

def pyLower (s : String) : String := String.mk (s.data.map pyLowerChar)

def pyUpper (s : String) : String := String.mk (s.data.map pyUpperChar)

/-- Day-token normalization shared by the builders: `days=None` means all
weekdays; otherwise `WEEKDAY_SHORT.get(d.lower(), d.upper())` per token. -/
def normalizeDays : Option (List String) → List String
  | none => WEEKDAYS
  | some ds => ds.map (fun d => (dget WEEKDAY_SHORT (pyLower d)).getD (pyUpper d))

/-- `create_simple_schedule`: one heating period per target day; `none`
models the `ValueError` raised by time parsing. -/
def create_simple_schedule (profile : Int) (heat_start heat_end : String)
    (comfort_temp lowering_temp : ℚ) (days : Option (List String)) :
    Option WeekSchedule :=
  match parse_time heat_start, parse_time heat_end with
  | some start_minutes, some end_minutes =>
    let target_days := normalizeDays days
    let base := WeekSchedule.make profile [] comfort_temp lowering_temp
    let newDays := WEEKDAYS.foldl (fun ds day =>
      let slots :=
        if target_days.contains day then
          [TimeSlot.mk 1 (start_minutes : ℚ) lowering_temp,
           TimeSlot.mk 2 (end_minutes : ℚ) comfort_temp,
           TimeSlot.mk 3 END_OF_DAY lowering_temp] ++
          (List.range 10).map (fun (j : Nat) =>
            TimeSlot.mk ((j : Int) + 4) END_OF_DAY lowering_temp)
        else
          (List.range MAX_SLOTS).map (fun (j : Nat) =>
            TimeSlot.mk ((j : Int) + 1) END_OF_DAY lowering_temp)
      dset ds day (DaySchedule.mk day slots)) base.days
    some { base with days := newDays }
  | _, _ => none

/-- `create_constant_schedule`: constant temperature on every slot. -/
def create_constant_schedule (profile : Int) (temperature : ℚ)
    (days : Option (List String)) : WeekSchedule :=
  let target_days := normalizeDays days
  let base := WeekSchedule.make profile [] temperature temperature
  let newDays := WEEKDAYS.foldl (fun ds day =>
    let slots :=
      if target_days.contains day then
        [TimeSlot.mk 1 END_OF_DAY temperature] ++
        (List.range 12).map (fun (j : Nat) =>
          TimeSlot.mk ((j : Int) + 2) END_OF_DAY temperature)
      else
        (List.range MAX_SLOTS).map (fun (j : Nat) =>
          TimeSlot.mk ((j : Int) + 1) END_OF_DAY temperature)
    dset ds day (DaySchedule.mk day slots)) base.days
  { base with days := newDays }

/-! ### Dictionary lemmas -/

theorem dget_cons {α : Type} (p : String × α) (d : List (String × α)) (k : String) :
    dget (p :: d) k = if k == p.1 then some p.2 else dget d k := by
  by_cases h : (k == p.1) = true
  · simp [dget, List.find?_cons_of_pos, h]
  · simp only [Bool.not_eq_true] at h
    simp [dget, List.find?_cons_of_neg, h]

theorem hasKey_cons {α : Type} (p : String × α) (d : List (String × α)) (k : String) :
    hasKey (p :: d) k = ((k == p.1) || hasKey d k) := by
  simp [hasKey]

theorem hasKey_false_dget {α : Type} {d : List (String × α)} {k : String}
    (h : hasKey d k = false) : dget d k = none := by
  induction d with
  | nil => rfl
  | cons p d ih =>
    rw [hasKey_cons, Bool.or_eq_false_iff] at h
    rw [dget_cons, if_neg (by simp [h.1]), ih h.2]

theorem dget_replaceMap_self {α : Type} {d : List (String × α)} {k : String} (v : α)
    (h : hasKey d k = true) :
    dget (d.map (fun p => if k == p.1 then (p.1, v) else p)) k = some v := by
  induction d with
  | nil => simp [hasKey] at h
  | cons p d ih =>
    rw [hasKey_cons, Bool.or_eq_true] at h
    rw [List.map_cons]
    by_cases hk : (k == p.1) = true
    · rw [if_pos hk, dget_cons]
      simp [hk]
    · simp only [Bool.not_eq_true] at hk
      rw [if_neg (by simp [hk]), dget_cons, if_neg (by simp [hk])]
      exact ih (h.resolve_left (by simp [hk]))

theorem dget_replaceMap_ne {α : Type} {d : List (String × α)} {k k' : String} (v : α)
    (hne : k' ≠ k) :
    dget (d.map (fun p => if k == p.1 then (p.1, v) else p)) k' = dget d k' := by
  induction d with
  | nil => rfl
  | cons p d ih =>
    rw [List.map_cons]
    by_cases hk : (k == p.1) = true
    · have hne' : (k' == p.1) = false := by
        rw [beq_eq_false_iff_ne]
        intro he
        exact hne (he.trans (eq_of_beq hk).symm)
      rw [if_pos hk, dget_cons, dget_cons]
      rw [if_neg (by simp [hne']), if_neg (by simp [hne'])]
      exact ih
    · rw [if_neg hk, dget_cons, dget_cons]
      by_cases hk' : (k' == p.1) = true
      · rw [if_pos hk', if_pos hk']
      · rw [if_neg hk', if_neg hk', ih]

theorem dget_append {α : Type} (d₁ d₂ : List (String × α)) (k : String) :
    dget (d₁ ++ d₂) k = (dget d₁ k).or (dget d₂ k) := by
  induction d₁ with
  | nil => simp [dget]
  | cons p d ih =>
    rw [List.cons_append, dget_cons, dget_cons]
    by_cases hk : (k == p.1) = true
    · rw [if_pos hk, if_pos hk]; rfl
    · rw [if_neg hk, if_neg hk, ih]

theorem dget_dset_self {α : Type} (d : List (String × α)) (k : String) (v : α) :
    dget (dset d k v) k = some v := by
  unfold dset
  by_cases h : hasKey d k = true
  · rw [if_pos h]; exact dget_replaceMap_self v h
  · simp only [Bool.not_eq_true] at h
    rw [if_neg (by simp [h]), dget_append, hasKey_false_dget h]
    simp [dget_cons]

theorem dget_dset_ne {α : Type} (d : List (String × α)) (k k' : String) (v : α)
    (hne : k' ≠ k) : dget (dset d k v) k' = dget d k' := by
  unfold dset
  by_cases h : hasKey d k = true
  · rw [if_pos h]; exact dget_replaceMap_ne v hne
  · simp only [Bool.not_eq_true] at h
    rw [if_neg (by simp [h]), dget_append]
    have h1 : dget [(k, v)] k' = none := by
      rw [dget_cons, if_neg (by simp only [beq_iff_eq]; exact hne)]; rfl
    rw [h1]
    cases dget d k' <;> rfl

theorem hasKey_replaceMap {α : Type} (d : List (String × α)) (k k' : String) (v : α) :
    hasKey (d.map (fun p => if k == p.1 then (p.1, v) else p)) k' = hasKey d k' := by
  induction d with
  | nil => rfl
  | cons p d ih =>
    rw [List.map_cons, hasKey_cons, hasKey_cons, ih]
    by_cases hk : (k == p.1) = true
    · rw [if_pos hk]
    · rw [if_neg hk]

theorem hasKey_dset {α : Type} (d : List (String × α)) (k k' : String) (v : α) :
    hasKey (dset d k v) k' = ((k' == k) || hasKey d k') := by
  unfold dset
  by_cases h : hasKey d k = true
  · rw [if_pos h, hasKey_replaceMap]
    by_cases hk' : (k' == k) = true
    · rw [hk', eq_of_beq hk', h, Bool.true_or]
    · simp only [Bool.not_eq_true] at hk'
      rw [hk', Bool.false_or]
  · simp only [Bool.not_eq_true] at h
    rw [if_neg (by simp [h]), hasKey, List.any_append]
    simp only [hasKey, List.any_cons, List.any_nil, Bool.or_false]
    exact Bool.or_comm _ _

/-! ### Sequences of dict writes -/

/-- Apply a list of `dict[k] = v` writes in order. -/
def applyWrites {α : Type} (d : List (String × α)) (ws : List (String × α)) :
    List (String × α) :=
  ws.foldl (fun acc p => dset acc p.1 p.2) d

theorem applyWrites_cons {α : Type} (d : List (String × α)) (p : String × α)
    (ws : List (String × α)) :
    applyWrites d (p :: ws) = applyWrites (dset d p.1 p.2) ws := rfl

theorem applyWrites_append {α : Type} (d : List (String × α))
    (ws₁ ws₂ : List (String × α)) :
    applyWrites d (ws₁ ++ ws₂) = applyWrites (applyWrites d ws₁) ws₂ :=
  List.foldl_append _ _ _ _

theorem dget_eq_none_of_not_mem_keys {α : Type} {ws : List (String × α)}
    {k : String} (h : k ∉ ws.map Prod.fst) : dget ws k = none := by
  induction ws with
  | nil => rfl
  | cons p ws ih =>
    rw [List.map_cons, List.mem_cons, not_or] at h
    rw [dget_cons, if_neg (by simp [h.1]), ih h.2]

theorem dget_applyWrites {α : Type} {ws : List (String × α)}
    (h : (ws.map Prod.fst).Nodup) (d : List (String × α)) (k : String) :
    dget (applyWrites d ws) k = (dget ws k).or (dget d k) := by
  induction ws generalizing d with
  | nil => simp [applyWrites, dget]
  | cons p ws ih =>
    rw [List.map_cons, List.nodup_cons] at h
    rw [applyWrites_cons, ih h.2, dget_cons]
    by_cases hk : (k == p.1) = true
    · have hkk : k = p.1 := eq_of_beq hk
      rw [if_pos hk, dget_eq_none_of_not_mem_keys (hkk ▸ h.1), hkk,
        dget_dset_self]
      rfl
    · rw [if_neg hk, dget_dset_ne _ _ _ _ (by simpa using hk)]

theorem hasKey_applyWrites {α : Type} (ws : List (String × α))
    (d : List (String × α)) (k : String) :
    hasKey (applyWrites d ws) k = (hasKey ws k || hasKey d k) := by
  induction ws generalizing d with
  | nil => simp [applyWrites, hasKey]
  | cons p ws ih =>
    rw [applyWrites_cons, ih, hasKey_dset, hasKey_cons]
    cases k == p.1 <;> cases hasKey ws k <;> cases hasKey d k <;> rfl

theorem dget_of_mem_nodup {α : Type} {ws : List (String × α)}
    (h : (ws.map Prod.fst).Nodup) {k : String} {v : α} (hm : (k, v) ∈ ws) :
    dget ws k = some v := by
  induction ws with
  | nil => cases hm
  | cons p ws ih =>
    rw [List.map_cons, List.nodup_cons] at h
    rcases List.mem_cons.mp hm with he | hm'
    · rw [← he, dget_cons, if_pos (by simp)]
    · have hne : (k == p.1) = false := by
        rw [beq_eq_false_iff_ne]
        intro hkp
        exact h.1 (hkp ▸ List.mem_map.mpr ⟨(k, v), hm', rfl⟩)
      rw [dget_cons, if_neg (by simp [hne]), ih h.2 hm']

theorem dget_map_pair_of_mem {α : Type} {l : List String} (f : String → α)
    {k : String} (h : k ∈ l) :
    dget (l.map (fun d => (d, f d))) k = some (f k) := by
  induction l with
  | nil => cases h
  | cons a l ih =>
    rw [List.map_cons, dget_cons]
    by_cases hk : (k == a) = true
    · rw [if_pos hk, eq_of_beq hk]
    · rcases List.mem_cons.mp h with he | h'
      · subst he
        exact absurd (beq_self_eq_true k) hk
      · rw [if_neg hk, ih h']

/-! ### C2: the active-slot scan -/

theorem activeScan_eq_of_findIdx (l : List TimeSlot) :
    activeScan l =
      match l.findIdx? (fun s => decide (END_OF_DAY ≤ s.end_minutes)) with
      | some i => l.take (i + 1)
      | none => l := by
  induction l with
  | nil => rfl
  | cons s rest ih =>
    rw [List.findIdx?_cons]
    by_cases hs : END_OF_DAY ≤ s.end_minutes
    · rw [if_pos (by simp [hs])]
      unfold activeScan
      rw [if_pos hs]
      rfl
    · rw [if_neg (by simp [hs]), List.findIdx?_succ]
      unfold activeScan
      rw [if_neg hs, ih]
      cases rest.findIdx? (fun s => decide (END_OF_DAY ≤ s.end_minutes)) <;> rfl

theorem activeScan_isPre (l : List TimeSlot) : activeScan l <+: l := by
  rw [activeScan_eq_of_findIdx]
  cases l.findIdx? (fun s => decide (END_OF_DAY ≤ s.end_minutes)) with
  | none => exact List.prefix_refl l
  | some i => exact ⟨l.drop (i + 1), List.take_append_drop (i + 1) l⟩

theorem activeScan_ne_nil {l : List TimeSlot} (h : l ≠ []) :
    activeScan l ≠ [] := by
  match l with
  | [] => exact absurd rfl h
  | s :: rest =>
    unfold activeScan
    by_cases hs : END_OF_DAY ≤ s.end_minutes
    · rw [if_pos hs]; simp
    · rw [if_neg hs]; simp

/-- C2 (amended): for every `DaySchedule`, `get_active_slots` returns a
prefix of `slots` in stored order, equal to the slice up to and including
the first slot with `end_minutes >= 1440` when one exists and to all of
`slots` otherwise; the result is nonempty whenever `slots` is nonempty
(the original claim's unconditional nonemptiness fails for a slot-less
day, see the counterexample). -/
theorem active_slots_law (d : DaySchedule) :
    (d.get_active_slots <+: d.slots) ∧
    (d.get_active_slots =
      match d.slots.findIdx? (fun s => decide (END_OF_DAY ≤ s.end_minutes)) with
      | some i => d.slots.take (i + 1)
      | none => d.slots) ∧
    (d.slots ≠ [] → d.get_active_slots ≠ []) :=
  ⟨activeScan_isPre d.slots, activeScan_eq_of_findIdx d.slots,
    fun h => activeScan_ne_nil h⟩

/-- C2 counterexample: on a `DaySchedule` holding no slots (exactly what
`WeekSchedule.__post_init__` constructs), `get_active_slots` returns the
empty list, refuting the claim's "never the empty list". -/
theorem active_slots_empty_cex :
    (DaySchedule.mk "MONDAY" []).get_active_slots = [] := rfl

/-- Witness for `active_slots_law` at a concrete one-slot day. -/
theorem active_slots_law_witness :
    (DaySchedule.mk "MONDAY" [TimeSlot.mk 1 300 17]).slots ≠ [] ∧
    (DaySchedule.mk "MONDAY" [TimeSlot.mk 1 300 17]).get_active_slots ≠ [] :=
  ⟨by decide,
    (active_slots_law (DaySchedule.mk "MONDAY" [TimeSlot.mk 1 300 17])).2.2
      (by decide)⟩

/-! ### C5 and C10: parse_time error law -/

/-- Refinement target written from the spec's words for C5: fail exactly
when the string does not split into two colon-delimited parts, a part is
non-numeric, hour is outside [0,24], minute is outside [0,59], or hour=24
with nonzero minute; otherwise return hour*60+minute. -/
def timeSpec (s : String) : Option Int :=
  match splitOnColon s.data with
  | [p0, p1] =>
    match pyIntChars p0, pyIntChars p1 with
    | some h, some m =>
      if h < 0 ∨ 24 < h ∨ m < 0 ∨ 59 < m ∨ (h = 24 ∧ m ≠ 0) then none
      else some (h * 60 + m)
    | _, _ => none
  | _ => none

theorem parse_time_eq_timeSpec (s : String) : parse_time s = timeSpec s := by
  unfold parse_time timeSpec
  rcases hsp : splitOnColon s.data with _ | ⟨p0, _ | ⟨p1, _ | ⟨q, qs⟩⟩⟩ <;>
    try rfl
  rcases h0 : pyIntChars p0 with _ | h <;> simp only [h0] <;> try rfl
  rcases h1 : pyIntChars p1 with _ | m <;> simp only [h1] <;> try rfl
  split_ifs <;> first | rfl | omega

/-- C5: `parse_time` fails with a format error exactly when the input does
not split into two colon-delimited parts, a part is non-numeric, the hour is
outside [0,24], the minute is outside [0,59], or hour=24 with nonzero
minute, and otherwise returns hour*60+minute (`parse_time = timeSpec`);
in particular "25:00", "12:60", "0530" and "24:01" fail while "5:00" and
"05:00" parse to 300. -/
theorem parse_time_error_law :
    (∀ s : String, parse_time s = timeSpec s) ∧
    parse_time "25:00" = none ∧ parse_time "12:60" = none ∧
    parse_time "0530" = none ∧ parse_time "24:01" = none ∧
    parse_time "5:00" = some 300 ∧ parse_time "05:00" = some 300 :=
  ⟨parse_time_eq_timeSpec, by decide, by decide, by decide, by decide,
    by decide, by decide⟩

/-- C10: `parse_time` inherits Python `int(...)` leniency: parts with
surrounding whitespace or an explicit leading plus sign are accepted, e.g.
" 5:00" and "+5:00" parse to 300 and "05: 30" parses to 330; in general any
two-part input whose parts Python-int-parse to an in-range hour and minute
succeeds. -/
theorem parse_time_lenient :
    parse_time " 5:00" = some 300 ∧ parse_time "+5:00" = some 300 ∧
    parse_time "05: 30" = some 330 ∧
    (∀ (s : String) (p0 p1 : List Char) (h m : Int),
      splitOnColon s.data = [p0, p1] → pyIntChars p0 = some h →
      pyIntChars p1 = some m → 0 ≤ h → h ≤ 24 → 0 ≤ m → m < 60 →
      ¬(h = 24 ∧ 0 < m) → parse_time s = some (h * 60 + m)) := by
  refine ⟨by decide, by decide, by decide, ?_⟩
  intro s p0 p1 h m hsplit hp0 hp1 h1 h2 h3 h4 h5
  unfold parse_time
  rw [hsplit]
  simp only [hp0, hp1]
  rw [if_neg (by omega), if_neg (by omega)]

/-- Witness for `parse_time_lenient`: the general leniency component at a
concrete input with a space-bearing hour part and single-digit minute. -/
theorem parse_time_lenient_witness : parse_time " 18:5" = some 1085 :=
  parse_time_lenient.2.2.2 " 18:5" " 18".data "5".data 18 5 (by decide)
    (by decide) (by decide) (by decide) (by decide) (by decide) (by decide)
    (by decide)

/-! ### C6: permissive decode -/

/-- Functional characterization of the decoder, shared by several claims. -/
theorem parse_schedule_eq (params : Paramset) (p : Int) :
    parse_schedule_from_paramset params p =
      { profile_number := p
        days := WEEKDAYS.map (fun day => (day, DaySchedule.mk day
          ((List.range MAX_SLOTS).map (fun (j : Nat) =>
            TimeSlot.mk ((j : Int) + 1)
              ((dget params (endtimeKey p day ((j : Int) + 1))).getD END_OF_DAY)
              ((dget params (tempKey p day ((j : Int) + 1))).getD
                ((dget params "TEMPERATURE_LOWERING").getD 17))))))
        comfort_temp := (dget params "TEMPERATURE_COMFORT").getD 21
        lowering_temp := (dget params "TEMPERATURE_LOWERING").getD 17 } := rfl

/-- C6: decoding never fails (the model is a total function); the result has
all 7 weekdays, each holding 13 slots numbered 1..13, each slot's
`end_minutes` drawn from `P{p}_ENDTIME_{DAY}_{slot}` (default 1440) and its
`temperature` from `P{p}_TEMPERATURE_{DAY}_{slot}` (default: the decoded
lowering temperature), with `comfort_temp` defaulting to 21.0 and
`lowering_temp` to 17.0 when their keys are absent. -/
theorem parse_schedule_permissive (params : Paramset) (p : Int) :
    parse_schedule_from_paramset params p =
      { profile_number := p
        days := WEEKDAYS.map (fun day => (day, DaySchedule.mk day
          ((List.range MAX_SLOTS).map (fun (j : Nat) =>
            TimeSlot.mk ((j : Int) + 1)
              ((dget params (endtimeKey p day ((j : Int) + 1))).getD END_OF_DAY)
              ((dget params (tempKey p day ((j : Int) + 1))).getD
                ((dget params "TEMPERATURE_LOWERING").getD 17))))))
        comfort_temp := (dget params "TEMPERATURE_COMFORT").getD 21
        lowering_temp := (dget params "TEMPERATURE_LOWERING").getD 17 } :=
  parse_schedule_eq params p

/-! ### C4: constant schedule -/

/-- Thirteen slots numbered 1..13, all ending at 1440 with temperature `t`. -/
def constSlots (t : ℚ) : List TimeSlot :=
  (List.range MAX_SLOTS).map (fun (j : Nat) => TimeSlot.mk ((j : Int) + 1) END_OF_DAY t)

/-- Both branches of `create_constant_schedule`'s per-day slot construction
produce the same thirteen placeholder slots. -/
theorem constant_branch (b : Bool) (t : ℚ) :
    (if b then
       [TimeSlot.mk 1 END_OF_DAY t] ++
       (List.range 12).map (fun (j : Nat) => TimeSlot.mk ((j : Int) + 2) END_OF_DAY t)
     else
       (List.range MAX_SLOTS).map (fun (j : Nat) =>
         TimeSlot.mk ((j : Int) + 1) END_OF_DAY t)) = constSlots t := by
  cases b <;> rfl

/-- Functional characterization of `create_constant_schedule`, shared by
several claims. -/
theorem create_constant_eq (profile : Int) (t : ℚ)
    (days : Option (List String)) :
    create_constant_schedule profile t days =
      { profile_number := profile
        days := WEEKDAYS.map (fun day => (day, DaySchedule.mk day (constSlots t)))
        comfort_temp := t
        lowering_temp := t } := by
  unfold create_constant_schedule
  simp only [constant_branch]
  rfl

/-- C4: `create_constant_schedule(profile, temperature, days)` always sets
`comfort_temp = lowering_temp = temperature` and gives every one of the
seven days thirteen slots all equal to `(1440, temperature)`, so
`get_active_slots` on every day is exactly `[slot 1 = (1440, temperature)]`. -/
theorem create_constant_law (profile : Int) (t : ℚ)
    (days : Option (List String)) :
    create_constant_schedule profile t days =
      { profile_number := profile
        days := WEEKDAYS.map (fun day => (day, DaySchedule.mk day (constSlots t)))
        comfort_temp := t
        lowering_temp := t } ∧
    (create_constant_schedule profile t days).days.map
        (fun p => p.2.get_active_slots) =
      List.replicate 7 [TimeSlot.mk 1 END_OF_DAY t] := by
  refine ⟨create_constant_eq profile t days, ?_⟩
  rw [create_constant_eq profile t days]
  rfl

/-! ### C3: simple schedule -/

/-- The claim's slot list for a target day of a simple schedule: slot 1 ends
at `heat_start` with the lowering temperature, slot 2 at `heat_end` with the
comfort temperature, slot 3 at 1440 with lowering, slots 4..13 placeholders
at `(1440, lowering)`. -/
def simpleSlots (a b : Int) (ct lt : ℚ) : List TimeSlot :=
  [TimeSlot.mk 1 (a : ℚ) lt, TimeSlot.mk 2 (b : ℚ) ct,
   TimeSlot.mk 3 END_OF_DAY lt, TimeSlot.mk 4 END_OF_DAY lt,
   TimeSlot.mk 5 END_OF_DAY lt, TimeSlot.mk 6 END_OF_DAY lt,
   TimeSlot.mk 7 END_OF_DAY lt, TimeSlot.mk 8 END_OF_DAY lt,
   TimeSlot.mk 9 END_OF_DAY lt, TimeSlot.mk 10 END_OF_DAY lt,
   TimeSlot.mk 11 END_OF_DAY lt, TimeSlot.mk 12 END_OF_DAY lt,
   TimeSlot.mk 13 END_OF_DAY lt]

/-- Functional characterization of `create_simple_schedule` on valid time
strings, shared by several claims. -/
theorem create_simple_eq (profile : Int) (hs he : String) (ct lt : ℚ)
    (days : Option (List String)) (a b : Int)
    (ha : parse_time hs = some a) (hb : parse_time he = some b) :
    create_simple_schedule profile hs he ct lt days =
      some { profile_number := profile
             days := WEEKDAYS.map (fun day => (day, DaySchedule.mk day
               (if (normalizeDays days).contains day then simpleSlots a b ct lt
                else constSlots lt)))
             comfort_temp := ct
             lowering_temp := lt } := by
  unfold create_simple_schedule
  rw [ha, hb]
  rfl

/-- C3: for every pair of valid time strings, `create_simple_schedule`
gives each target day slots 1..3 at (heat_start, lowering), (heat_end,
comfort), (1440, lowering) plus placeholders 4..13, every non-target day 13
placeholders at (1440, lowering); `days = none` targets all seven days;
and the spec's Monday scenario holds concretely. -/
theorem create_simple_law (profile : Int) (hs he : String) (ct lt : ℚ)
    (days : Option (List String)) (a b : Int)
    (ha : parse_time hs = some a) (hb : parse_time he = some b) :
    create_simple_schedule profile hs he ct lt days =
      some { profile_number := profile
             days := WEEKDAYS.map (fun day => (day, DaySchedule.mk day
               (if (normalizeDays days).contains day then simpleSlots a b ct lt
                else constSlots lt)))
             comfort_temp := ct
             lowering_temp := lt } ∧
    normalizeDays none = WEEKDAYS ∧
    (create_simple_schedule 1 "05:00" "22:00" 21 17 none).map (fun w =>
        (dget w.days "MONDAY").map DaySchedule.get_active_slots) =
      some (some [TimeSlot.mk 1 300 17, TimeSlot.mk 2 1320 21,
                  TimeSlot.mk 3 1440 17]) :=
  ⟨create_simple_eq profile hs he ct lt days a b ha hb, rfl, by decide⟩

/-- Witness for `create_simple_law` at the spec's day-filter scenario. -/
theorem create_simple_law_witness :
    create_simple_schedule 1 "06:00" "20:00" 21 17 (some ["mon"]) =
      some { profile_number := 1
             days := WEEKDAYS.map (fun day => (day, DaySchedule.mk day
               (if (normalizeDays (some ["mon"])).contains day then
                  simpleSlots 360 1200 21 17 else constSlots 17)))
             comfort_temp := 21
             lowering_temp := 17 } :=
  (create_simple_law 1 "06:00" "20:00" 21 17 (some ["mon"]) 360 1200
    (by decide) (by decide)).1

/-! ### C9: seven-day invariant -/

theorem hasKey_eq_dget_isSome {α : Type} (d : List (String × α)) (k : String) :
    hasKey d k = (dget d k).isSome := by
  induction d with
  | nil => rfl
  | cons p d ih =>
    rw [hasKey_cons, dget_cons, ih]
    by_cases hk : (k == p.1) = true
    · rw [if_pos hk, hk, Bool.true_or]; rfl
    · simp only [Bool.not_eq_true] at hk
      rw [if_neg (by simp [hk]), hk, Bool.false_or]

theorem hasKey_ensureDay_self (ds : List (String × DaySchedule)) (day : String) :
    hasKey (ensureDay ds day) day = true := by
  unfold ensureDay
  by_cases h : hasKey ds day = true
  · rw [if_pos h]; exact h
  · simp only [Bool.not_eq_true] at h
    rw [if_neg (by simp [h]), hasKey, List.any_append]
    simp [hasKey]

theorem hasKey_ensureDay_mono {ds : List (String × DaySchedule)} {k : String}
    (day : String) (h : hasKey ds k = true) :
    hasKey (ensureDay ds day) k = true := by
  unfold ensureDay
  by_cases hd : hasKey ds day = true
  · rw [if_pos hd]; exact h
  · simp only [Bool.not_eq_true] at hd
    rw [if_neg (by simp [hd]), hasKey, List.any_append]
    rw [hasKey] at h
    rw [h, Bool.true_or]

theorem hasKey_foldl_ensureDay_mono (l : List String)
    {ds : List (String × DaySchedule)} {k : String} (h : hasKey ds k = true) :
    hasKey (l.foldl ensureDay ds) k = true := by
  induction l generalizing ds with
  | nil => exact h
  | cons d l ih => exact ih (hasKey_ensureDay_mono d h)

theorem hasKey_foldl_ensureDay (l : List String)
    (ds : List (String × DaySchedule)) {k : String} (hk : k ∈ l) :
    hasKey (l.foldl ensureDay ds) k = true := by
  induction l generalizing ds with
  | nil => cases hk
  | cons d l ih =>
    rcases List.mem_cons.mp hk with he | h'
    · subst he
      exact hasKey_foldl_ensureDay_mono l (hasKey_ensureDay_self ds k)
    · exact ih (ensureDay ds d) h'

theorem hasKey_map_pair_of_mem {α : Type} {l : List String} (f : String → α)
    {k : String} (h : k ∈ l) :
    hasKey (l.map (fun d => (d, f d))) k = true := by
  rw [hasKey_eq_dget_isSome, dget_map_pair_of_mem f h]
  rfl

/-- C9: every `WeekSchedule` holds an entry for each of the seven weekday
symbols immediately after construction (for any initial days mapping), and
so does every `WeekSchedule` returned by `parse_schedule_from_paramset`,
`create_simple_schedule` or `create_constant_schedule`. -/
theorem seven_day_invariant :
    (∀ (profile : Int) (ds : List (String × DaySchedule)) (ct lt : ℚ),
      ∀ day ∈ WEEKDAYS,
        hasKey (WeekSchedule.make profile ds ct lt).days day = true) ∧
    (∀ (params : Paramset) (p : Int),
      ∀ day ∈ WEEKDAYS,
        hasKey (parse_schedule_from_paramset params p).days day = true) ∧
    (∀ (profile : Int) (hs he : String) (ct lt : ℚ)
      (days : Option (List String)) (w : WeekSchedule),
      create_simple_schedule profile hs he ct lt days = some w →
      ∀ day ∈ WEEKDAYS, hasKey w.days day = true) ∧
    (∀ (profile : Int) (t : ℚ) (days : Option (List String)),
      ∀ day ∈ WEEKDAYS,
        hasKey (create_constant_schedule profile t days).days day = true) := by
  refine ⟨?_, ?_, ?_, ?_⟩
  · intro profile ds ct lt day hd
    exact hasKey_foldl_ensureDay WEEKDAYS ds hd
  · intro params p day hd
    rw [parse_schedule_eq]
    exact hasKey_map_pair_of_mem _ hd
  · intro profile hs he ct lt days w hw day hd
    rcases ha : parse_time hs with _ | a <;> rcases hb : parse_time he with _ | b
    · unfold create_simple_schedule at hw
      simp only [ha, hb] at hw
      cases hw
    · unfold create_simple_schedule at hw
      simp only [ha, hb] at hw
      cases hw
    · unfold create_simple_schedule at hw
      simp only [ha, hb] at hw
      cases hw
    · rw [create_simple_eq profile hs he ct lt days a b ha hb] at hw
      injection hw with hw
      subst hw
      exact hasKey_map_pair_of_mem _ hd
  · intro profile t days day hd
    rw [create_constant_eq]
    exact hasKey_map_pair_of_mem _ hd

/-- Witness for `seven_day_invariant` at concrete inputs, one per clause. -/
theorem seven_day_invariant_witness :
    hasKey (WeekSchedule.make 1 [] 21 17).days "SUNDAY" = true ∧
    hasKey (parse_schedule_from_paramset [] 1).days "WEDNESDAY" = true ∧
    (∀ w, create_simple_schedule 1 "05:00" "22:00" 21 17 none = some w →
      hasKey w.days "FRIDAY" = true) ∧
    hasKey (create_constant_schedule 1 21 none).days "MONDAY" = true :=
  ⟨seven_day_invariant.1 1 [] 21 17 "SUNDAY" (by decide),
   seven_day_invariant.2.1 [] 1 "WEDNESDAY" (by decide),
   fun w hw => seven_day_invariant.2.2.1 1 "05:00" "22:00" 21 17 none w hw
     "FRIDAY" (by decide),
   seven_day_invariant.2.2.2 1 21 none "MONDAY" (by decide)⟩

/-! ### C8 and C1: the encoder's writes -/

/-- The two dict writes the encoder performs for one slot of one day. -/
def slotWrites (profile : Int) (day : String) (sl : TimeSlot) :
    List (String × ℚ) :=
  [(endtimeKey profile day sl.slot_number, sl.end_minutes),
   (tempKey profile day sl.slot_number, sl.temperature)]

/-- All writes the encoder performs, in order. -/
def scheduleWrites (s : WeekSchedule) : List (String × ℚ) :=
  s.days.flatMap (fun p => p.2.slots.flatMap (slotWrites s.profile_number p.1))

/-- The keys the encoder emits: an `ENDTIME` and a `TEMPERATURE` key for
every day in the schedule's days mapping and every slot held by that day. -/
def buildKeys (s : WeekSchedule) : List String :=
  s.days.flatMap (fun p => p.2.slots.flatMap (fun sl =>
    [endtimeKey s.profile_number p.1 sl.slot_number,
     tempKey s.profile_number p.1 sl.slot_number]))

theorem slots_foldl_eq (profile : Int) (day : String) (slots : List TimeSlot)
    (d : Paramset) :
    slots.foldl (fun params2 sl =>
      dset (dset params2 (endtimeKey profile day sl.slot_number) sl.end_minutes)
        (tempKey profile day sl.slot_number) sl.temperature) d
    = applyWrites d (slots.flatMap (slotWrites profile day)) := by
  induction slots generalizing d with
  | nil => rfl
  | cons sl slots ih =>
    rw [List.foldl_cons, List.flatMap_cons, applyWrites_append, ih]
    rfl

theorem build_eq_applyWrites (s : WeekSchedule) :
    build_schedule_params s = applyWrites [] (scheduleWrites s) := by
  unfold build_schedule_params scheduleWrites
  generalize ([] : Paramset) = d
  induction s.days generalizing d with
  | nil => rfl
  | cons p days ih =>
    rw [List.foldl_cons, List.flatMap_cons, applyWrites_append,
      slots_foldl_eq, ih]

theorem keys_scheduleWrites (s : WeekSchedule) :
    (scheduleWrites s).map Prod.fst = buildKeys s := by
  unfold scheduleWrites buildKeys
  rw [List.map_flatMap]
  congr 1
  funext p
  rw [List.map_flatMap]
  congr 1

theorem hasKey_iff_mem_keys {α : Type} (d : List (String × α)) (k : String) :
    hasKey d k = true ↔ k ∈ d.map Prod.fst := by
  induction d with
  | nil => simp [hasKey]
  | cons p d ih =>
    rw [hasKey_cons, List.map_cons, List.mem_cons, Bool.or_eq_true, ih]
    constructor
    · rintro (h | h)
      · exact Or.inl (eq_of_beq h)
      · exact Or.inr h
    · rintro (h | h)
      · exact Or.inl (by simp [h])
      · exact Or.inr h

theorem profileTag_head (p : Int) (r : String) :
    (profileTag p ++ r).data.head? = some 'P' := by
  unfold profileTag
  rw [String.data_append, String.data_append, String.data_append]
  rfl

theorem mem_buildKeys_head {s : WeekSchedule} {k : String}
    (h : k ∈ buildKeys s) : k.data.head? = some 'P' := by
  rcases List.mem_flatMap.mp h with ⟨p, hp, hk⟩
  rcases List.mem_flatMap.mp hk with ⟨sl, hsl, hk2⟩
  simp only [List.mem_cons, List.not_mem_nil, or_false] at hk2
  rcases hk2 with h1 | h1 <;> rw [h1] <;> exact profileTag_head _ _

/-- When the emitted keys are pairwise distinct, every slot's two entries
survive to the final dictionary with that slot's values. -/
theorem build_values_of_nodup {s : WeekSchedule}
    (hnd : (buildKeys s).Nodup) :
    ∀ p ∈ s.days, ∀ sl ∈ p.2.slots,
      dget (build_schedule_params s)
          (endtimeKey s.profile_number p.1 sl.slot_number) =
        some sl.end_minutes ∧
      dget (build_schedule_params s)
          (tempKey s.profile_number p.1 sl.slot_number) =
        some sl.temperature := by
  have hnd' : ((scheduleWrites s).map Prod.fst).Nodup := by
    rw [keys_scheduleWrites]
    exact hnd
  intro p hp sl hsl
  constructor
  · rw [build_eq_applyWrites, dget_applyWrites hnd']
    have hm : (endtimeKey s.profile_number p.1 sl.slot_number,
        sl.end_minutes) ∈ scheduleWrites s :=
      List.mem_flatMap.mpr ⟨p, hp,
        List.mem_flatMap.mpr ⟨sl, hsl, by simp [slotWrites]⟩⟩
    rw [dget_of_mem_nodup hnd' hm]
    rfl
  · rw [build_eq_applyWrites, dget_applyWrites hnd']
    have hm : (tempKey s.profile_number p.1 sl.slot_number,
        sl.temperature) ∈ scheduleWrites s :=
      List.mem_flatMap.mpr ⟨p, hp,
        List.mem_flatMap.mpr ⟨sl, hsl, by simp [slotWrites]⟩⟩
    rw [dget_of_mem_nodup hnd' hm]
    rfl

/-- C8: the key set of `build_schedule_params(s)` is exactly
`P{n}_ENDTIME_{day}_{k}` and `P{n}_TEMPERATURE_{day}_{k}` ranging over every
day in `s.days` and every slot held by that day; neither
`TEMPERATURE_COMFORT` nor `TEMPERATURE_LOWERING` is ever emitted; and with
the emitted keys pairwise distinct (automatic for dict-shaped schedules:
day names are dict keys and per-day slot numbers are unique), every key
maps to its slot's `end_minutes` resp. `temperature`. -/
theorem build_key_exactness (s : WeekSchedule) :
    (∀ k, hasKey (build_schedule_params s) k = true ↔ k ∈ buildKeys s) ∧
    hasKey (build_schedule_params s) "TEMPERATURE_COMFORT" = false ∧
    hasKey (build_schedule_params s) "TEMPERATURE_LOWERING" = false ∧
    ((buildKeys s).Nodup → ∀ p ∈ s.days, ∀ sl ∈ p.2.slots,
      dget (build_schedule_params s)
          (endtimeKey s.profile_number p.1 sl.slot_number) =
        some sl.end_minutes ∧
      dget (build_schedule_params s)
          (tempKey s.profile_number p.1 sl.slot_number) =
        some sl.temperature) := by
  have hkey : ∀ k, hasKey (build_schedule_params s) k = true ↔
      k ∈ buildKeys s := by
    intro k
    rw [build_eq_applyWrites, hasKey_applyWrites]
    have h0 : hasKey ([] : Paramset) k = false := rfl
    rw [h0, Bool.or_false, hasKey_iff_mem_keys, keys_scheduleWrites]
  refine ⟨hkey, ?_, ?_, fun hnd => build_values_of_nodup hnd⟩
  · rw [Bool.eq_false_iff]
    intro hT
    exact absurd (mem_buildKeys_head ((hkey _).mp hT)) (by decide)
  · rw [Bool.eq_false_iff]
    intro hT
    exact absurd (mem_buildKeys_head ((hkey _).mp hT)) (by decide)

/-- Witness for `build_key_exactness` on a one-real-slot schedule. -/
theorem build_key_exactness_witness :
    dget (build_schedule_params (WeekSchedule.make 1 [("MONDAY",
        DaySchedule.mk "MONDAY" [TimeSlot.mk 1 300 17])] 21 17))
      (endtimeKey 1 "MONDAY" 1) = some 300 ∧
    dget (build_schedule_params (WeekSchedule.make 1 [("MONDAY",
        DaySchedule.mk "MONDAY" [TimeSlot.mk 1 300 17])] 21 17))
      (tempKey 1 "MONDAY" 1) = some 17 :=
  (build_key_exactness (WeekSchedule.make 1 [("MONDAY",
      DaySchedule.mk "MONDAY" [TimeSlot.mk 1 300 17])] 21 17)).2.2.2
    (by decide)
    ("MONDAY", DaySchedule.mk "MONDAY" [TimeSlot.mk 1 300 17]) (by decide)
    (TimeSlot.mk 1 300 17) (by decide)

/-! ### C1: codec round trip -/

/-- The slot numbers 1..13 every day of a well-formed schedule carries. -/
def slotNums : List Int := (List.range MAX_SLOTS).map (fun (j : Nat) => (j : Int) + 1)

/-- Profile-independent suffixes of every key the encoder emits for a
schedule whose seven days hold slots numbered 1..13. -/
def keySuffixList : List String :=
  WEEKDAYS.flatMap (fun day => slotNums.flatMap (fun n =>
    [endtimeSuffix day n, tempSuffix day n]))

set_option maxHeartbeats 1000000 in
set_option maxRecDepth 10000 in
theorem keySuffixList_nodup : keySuffixList.Nodup := by decide

theorem flatMap_congr {α β : Type} {l : List α} {f g : α → List β}
    (h : ∀ x ∈ l, f x = g x) : l.flatMap f = l.flatMap g := by
  induction l with
  | nil => rfl
  | cons a l ih =>
    rw [List.flatMap_cons, List.flatMap_cons, h a (List.mem_cons_self a l),
      ih (fun x hx => h x (List.mem_cons_of_mem a hx))]

theorem append_left_inj (a : String) :
    Function.Injective (fun r => a ++ r) := by
  intro x y h
  have h2 := congrArg String.data h
  rw [String.data_append, String.data_append] at h2
  have h3 := List.append_cancel_left h2
  cases x
  cases y
  exact congrArg String.mk (by simpa using h3)

theorem buildKeys_eq_of_struct {s : WeekSchedule}
    (H1 : s.days.map Prod.fst = WEEKDAYS)
    (H2 : ∀ p ∈ s.days, p.2.slots.map TimeSlot.slot_number = slotNums) :
    buildKeys s =
      keySuffixList.map (fun suf => profileTag s.profile_number ++ suf) := by
  unfold buildKeys
  have step1 : ∀ p ∈ s.days, p.2.slots.flatMap (fun sl =>
      [endtimeKey s.profile_number p.1 sl.slot_number,
       tempKey s.profile_number p.1 sl.slot_number]) =
      slotNums.flatMap (fun n =>
        [endtimeKey s.profile_number p.1 n,
         tempKey s.profile_number p.1 n]) := by
    intro p hp
    rw [← H2 p hp, List.flatMap_map]
  rw [flatMap_congr step1]
  have step2 : s.days.flatMap (fun p => slotNums.flatMap (fun n =>
      [endtimeKey s.profile_number p.1 n, tempKey s.profile_number p.1 n])) =
      (s.days.map Prod.fst).flatMap (fun day => slotNums.flatMap (fun n =>
        [endtimeKey s.profile_number day n,
         tempKey s.profile_number day n])) := by
    rw [List.flatMap_map]
  rw [step2, H1]
  unfold keySuffixList
  rw [List.map_flatMap]
  apply flatMap_congr
  intro day hd
  rw [List.map_flatMap]
  apply flatMap_congr
  intro n hn
  rfl

theorem buildKeys_nodup_of_struct {s : WeekSchedule}
    (H1 : s.days.map Prod.fst = WEEKDAYS)
    (H2 : ∀ p ∈ s.days, p.2.slots.map TimeSlot.slot_number = slotNums) :
    (buildKeys s).Nodup := by
  rw [buildKeys_eq_of_struct H1 H2]
  exact List.Nodup.map (append_left_inj (profileTag s.profile_number))
    keySuffixList_nodup

/-- C1: for every `WeekSchedule` whose seven days each hold exactly 13
slots numbered 1..13, decoding the encoder's output with the schedule's
profile number reproduces every day's slot numbers, end minutes and
temperatures exactly. -/
theorem codec_round_trip (s : WeekSchedule)
    (H1 : s.days.map Prod.fst = WEEKDAYS)
    (H2 : ∀ p ∈ s.days, p.2.slots.map TimeSlot.slot_number = slotNums) :
    ∀ p ∈ s.days, ∃ d,
      dget (parse_schedule_from_paramset (build_schedule_params s)
          s.profile_number).days p.1 = some d ∧
      d.slots.map TimeSlot.slot_number = p.2.slots.map TimeSlot.slot_number ∧
      d.slots.map TimeSlot.end_minutes = p.2.slots.map TimeSlot.end_minutes ∧
      d.slots.map TimeSlot.temperature = p.2.slots.map TimeSlot.temperature := by
  intro p hp
  have hnd := buildKeys_nodup_of_struct H1 H2
  have hday : p.1 ∈ WEEKDAYS := H1 ▸ List.mem_map_of_mem Prod.fst hp
  have hlen : p.2.slots.length = MAX_SLOTS := by
    have hl := congrArg List.length (H2 p hp)
    simpa [slotNums] using hl
  have hsn : ∀ (i : Nat) (h : i < p.2.slots.length),
      (p.2.slots.get ⟨i, h⟩).slot_number = (i : Int) + 1 := by
    intro i h
    have h2 : i < (p.2.slots.map TimeSlot.slot_number).length := by simpa using h
    have h3 := List.getElem_of_eq (H2 p hp) h2
    rw [List.getElem_map] at h3
    rw [List.get_eq_getElem, h3]
    simp [slotNums]
  have hslots : (List.range MAX_SLOTS).map (fun (j : Nat) =>
      TimeSlot.mk ((j : Int) + 1)
        ((dget (build_schedule_params s)
          (endtimeKey s.profile_number p.1 ((j : Int) + 1))).getD END_OF_DAY)
        ((dget (build_schedule_params s)
          (tempKey s.profile_number p.1 ((j : Int) + 1))).getD
          ((dget (build_schedule_params s) "TEMPERATURE_LOWERING").getD 17)))
      = p.2.slots := by
    apply List.ext_getElem
    · simpa using hlen.symm
    · intro i h1 h2
      rw [List.getElem_map, List.getElem_range]
      have hm : p.2.slots.get ⟨i, h2⟩ ∈ p.2.slots := List.get_mem p.2.slots i h2
      have hv := build_values_of_nodup hnd p hp (p.2.slots.get ⟨i, h2⟩) hm
      rw [← hsn i h2, hv.1, hv.2]
      rfl
  rw [parse_schedule_eq]
  refine ⟨_, dget_map_pair_of_mem _ hday, ?_, ?_, ?_⟩ <;> rw [hslots]

/-- Witness for `codec_round_trip` on the constant schedule at 21 °C. -/
theorem codec_round_trip_witness :
    ∃ d, dget (parse_schedule_from_paramset
        (build_schedule_params (create_constant_schedule 1 21 none))
        (create_constant_schedule 1 21 none).profile_number).days
        "MONDAY" = some d ∧
      d.slots.map TimeSlot.slot_number =
        (DaySchedule.mk "MONDAY" (constSlots 21)).slots.map
          TimeSlot.slot_number ∧
      d.slots.map TimeSlot.end_minutes =
        (DaySchedule.mk "MONDAY" (constSlots 21)).slots.map
          TimeSlot.end_minutes ∧
      d.slots.map TimeSlot.temperature =
        (DaySchedule.mk "MONDAY" (constSlots 21)).slots.map
          TimeSlot.temperature :=
  codec_round_trip (create_constant_schedule 1 21 none) (by decide) (by decide)
    ("MONDAY", DaySchedule.mk "MONDAY" (constSlots 21)) (by decide)

/-! ### C7: time-codec round trip -/

theorem digit_bounds (c : Char) (h : c.isDigit = true) :
    48 ≤ c.toNat ∧ c.toNat ≤ 57 := by
  unfold Char.isDigit at h
  rw [Bool.and_eq_true] at h
  obtain ⟨h1, h2⟩ := h
  rw [decide_eq_true_eq] at h1 h2
  simp only [GE.ge, Char.le_def, UInt32.le_def] at h1 h2
  exact ⟨h1, h2⟩

theorem char_ofNat_toNat (c : Char) : Char.ofNat c.toNat = c := by
  have hv : Nat.isValidChar c.toNat := c.valid
  unfold Char.ofNat
  rw [dif_pos hv]
  unfold Char.ofNatAux
  apply Char.eq_of_val_eq
  apply UInt32.eq_of_val_eq
  exact Fin.ext rfl

theorem digit_beq_false {c : Char} (h : c.isDigit = true) (x : Char)
    (hx : x.toNat < 48 ∨ 57 < x.toNat) : (c == x) = false := by
  have hb := digit_bounds c h
  rw [beq_eq_false_iff_ne]
  intro he
  rw [he] at hb
  omega

theorem digit_not_space {c : Char} (h : c.isDigit = true) :
    isPySpace c = false := by
  unfold isPySpace
  rw [digit_beq_false h ' ' (by decide), digit_beq_false h '\t' (by decide),
    digit_beq_false h '\n' (by decide), digit_beq_false h '\r' (by decide),
    digit_beq_false h (Char.ofNat 11) (by decide),
    digit_beq_false h (Char.ofNat 12) (by decide)]
  rfl

set_option maxRecDepth 4000 in
theorem intPad2_two_digits : ∀ A : Nat, A < 10 → ∀ B : Nat, B < 10 →
    intPad2 ((A * 10 + B : Nat) : Int) =
      String.mk [Char.ofNat (48 + A), Char.ofNat (48 + B)] := by decide

theorem splitOnColon_canonical {a b d e : Char} (ha : (a == ':') = false)
    (hb : (b == ':') = false) (hd : (d == ':') = false)
    (he : (e == ':') = false) :
    splitOnColon [a, b, ':', d, e] = [[a, b], [d, e]] := by
  simp [splitOnColon, ha, hb, hd, he]

theorem pyIntChars_two_digits {a b : Char} (ha : a.isDigit = true)
    (hb : b.isDigit = true) :
    pyIntChars [a, b] =
      some (((a.toNat - 48) * 10 + (b.toNat - 48) : Nat) : Int) := by
  have hsa : isPySpace a = false := digit_not_space ha
  have hsb : isPySpace b = false := digit_not_space hb
  have h1 : ([a, b].dropWhile isPySpace) = [a, b] := by
    rw [List.dropWhile_cons, if_neg (by simp [hsa])]
  have h2 : ([b, a].dropWhile isPySpace) = [b, a] := by
    rw [List.dropWhile_cons, if_neg (by simp [hsb])]
  have hr1 : ([a, b] : List Char).reverse = [b, a] := rfl
  have hr2 : ([b, a] : List Char).reverse = [a, b] := rfl
  have hDig : pyDigitsOf [a, b] =
      some ((a.toNat - 48) * 10 + (b.toNat - 48)) := by
    simp [pyDigitsOf, pyDigitsAux, ha, hb]
  simp only [pyIntChars]
  rw [h1, hr1, h2, hr2]
  simp only [digit_beq_false ha '+' (by decide),
    digit_beq_false ha '-' (by decide), Bool.false_eq_true, if_false, hDig]
  rfl

/-- Canonical zero-padded two-digit `HH:MM` shape, from the claim's words. -/
def CanonicalTime (x : String) : Bool :=
  match x.data with
  | [a, b, c, d, e] =>
    a.isDigit && b.isDigit && (c == ':') && d.isDigit && e.isDigit
  | _ => false

theorem format_parse_canonical : ∀ (x : String) (m : Int),
    CanonicalTime x = true → parse_time x = some m → format_time m = x := by
  intro x m hc hp
  obtain ⟨cs⟩ := x
  rcases cs with _ | ⟨a, cs⟩
  · simp [CanonicalTime] at hc
  rcases cs with _ | ⟨b, cs⟩
  · simp [CanonicalTime] at hc
  rcases cs with _ | ⟨c0, cs⟩
  · simp [CanonicalTime] at hc
  rcases cs with _ | ⟨d, cs⟩
  · simp [CanonicalTime] at hc
  rcases cs with _ | ⟨e, cs⟩
  · simp [CanonicalTime] at hc
  rcases cs with _ | ⟨f, cs⟩
  case cons => simp [CanonicalTime] at hc
  simp only [CanonicalTime, Bool.and_eq_true] at hc
  obtain ⟨⟨⟨⟨ha, hb⟩, hcol⟩, hd⟩, he⟩ := hc
  rw [eq_of_beq hcol] at hp ⊢
  have hca : (a == ':') = false := digit_beq_false ha ':' (by decide)
  have hcb : (b == ':') = false := digit_beq_false hb ':' (by decide)
  have hcd : (d == ':') = false := digit_beq_false hd ':' (by decide)
  have hce : (e == ':') = false := digit_beq_false he ':' (by decide)
  unfold parse_time at hp
  rw [show (String.mk [a, b, ':', d, e]).data = [a, b, ':', d, e] from rfl,
    splitOnColon_canonical hca hcb hcd hce] at hp
  simp only [pyIntChars_two_digits ha hb, pyIntChars_two_digits hd he] at hp
  split_ifs at hp with h1 h2
  cases hp
  push_neg at h1
  obtain ⟨⟨hH0, hH24⟩, hM0, hM60⟩ := h1
  have hA := digit_bounds a ha
  have hB := digit_bounds b hb
  have hD := digit_bounds d hd
  have hE := digit_bounds e he
  unfold format_time
  have hdiv : ((((a.toNat - 48) * 10 + (b.toNat - 48) : Nat) : Int) * 60 +
      (((d.toNat - 48) * 10 + (e.toNat - 48) : Nat) : Int)) / 60 =
      (((a.toNat - 48) * 10 + (b.toNat - 48) : Nat) : Int) := by omega
  have hmod : ((((a.toNat - 48) * 10 + (b.toNat - 48) : Nat) : Int) * 60 +
      (((d.toNat - 48) * 10 + (e.toNat - 48) : Nat) : Int)) % 60 =
      (((d.toNat - 48) * 10 + (e.toNat - 48) : Nat) : Int) := by omega
  rw [hdiv, hmod]
  rw [intPad2_two_digits (a.toNat - 48) (by omega) (b.toNat - 48) (by omega),
    intPad2_two_digits (d.toNat - 48) (by omega) (e.toNat - 48) (by omega)]
  have ca : Char.ofNat (48 + (a.toNat - 48)) = a := by
    rw [show 48 + (a.toNat - 48) = a.toNat by omega]
    exact char_ofNat_toNat a
  have cb : Char.ofNat (48 + (b.toNat - 48)) = b := by
    rw [show 48 + (b.toNat - 48) = b.toNat by omega]
    exact char_ofNat_toNat b
  have cd : Char.ofNat (48 + (d.toNat - 48)) = d := by
    rw [show 48 + (d.toNat - 48) = d.toNat by omega]
    exact char_ofNat_toNat d
  have ce : Char.ofNat (48 + (e.toNat - 48)) = e := by
    rw [show 48 + (e.toNat - 48) = e.toNat by omega]
    exact char_ofNat_toNat e
  rw [ca, cb, cd, ce]
  rfl

/-- C7: `parse_time(format_time(m)) = m` for each m in
{0, 1, 59, 300, 390, 885, 1440}, and `format_time(parse_time(x)) = x` for
every canonical zero-padded two-digit `HH:MM` string accepted by
`parse_time`. -/
theorem time_codec_round_trip :
    (parse_time (format_time 0) = some 0 ∧
     parse_time (format_time 1) = some 1 ∧
     parse_time (format_time 59) = some 59 ∧
     parse_time (format_time 300) = some 300 ∧
     parse_time (format_time 390) = some 390 ∧
     parse_time (format_time 885) = some 885 ∧
     parse_time (format_time 1440) = some 1440) ∧
    (∀ (x : String) (m : Int), CanonicalTime x = true →
      parse_time x = some m → format_time m = x) :=
  ⟨⟨by decide, by decide, by decide, by decide, by decide, by decide,
    by decide⟩, format_parse_canonical⟩

/-- Witness for `time_codec_round_trip` at the canonical string "07:30". -/
theorem time_codec_round_trip_witness : format_time 450 = "07:30" :=
  time_codec_round_trip.2 "07:30" 450 (by decide) (by decide)
